import Mathlib

/-!
# mikerybka/files: the HTTP file server, embedded and verified

The repository is one HTTP handler (`src/server.go`) that maps GET, PUT and DELETE onto a
directory tree below `Server.BaseDir`, and one JSON record (`src/dir_entry.go`).

The handlers are embedded as pure functions that take the filesystem state and return the
response together with the next filesystem state.  What they call in Go's standard library
(`path/filepath`, `os`, `io`, `encoding/json`, `net/http`) is embedded next to them, for a Unix
host:

* a Go string is a list of characters (`List Char`): the strings of the model are valid UTF-8;
  a file's content, a request body and a response body are lists of bytes;
* the filesystem is a tree of regular files and directories, without symbolic links,
  permissions, device faults or limits on names: a call fails only for a structural reason
  (`ENOENT`, `ENOTDIR`, `EISDIR`, `EEXIST`, `EINVAL`, `EBUSY`);
* the working directory of the process is the root directory;
* the working directory never matters for an absolute `BaseDir`, the case of the specification;
* a request carries its method, its URL path and its body, and no conditional or range headers;
  of a response the status, the body and the headers set by the handlers, by `http.Error` and
  by a redirect are kept.
-/

namespace Files

/-! ## Strings and bytes -/

/-- One element of a path: the name of a directory entry. -/
abbrev Name := List Char

/-- The content of a file, of a request body or of a response body. -/
abbrev Bytes := List UInt8

/-- The bytes of a text in UTF-8, the encoding of every Go string written to a response. -/
def utf8Encode : List Char → Bytes
  | [] => []
  | c :: cs => String.utf8EncodeChar c ++ utf8Encode cs

/-- Go `strings.HasPrefix`. -/
def hasPrefix : List Char → List Char → Bool
  | _, [] => true
  | [], _ :: _ => false
  | c :: s, d :: p => c == d && hasPrefix s p

/-- Go `strings.HasSuffix`. -/
def hasSuffix (s suffix : List Char) : Bool :=
  hasPrefix s.reverse suffix.reverse

/-- Go `strings.TrimPrefix(s, "/")`: one leading slash is removed, if there is one. -/
def TrimPrefix : List Char → List Char
  | '/' :: rest => rest
  | s => s

/-! ## `path/filepath` on a Unix host -/

/-- Go `filepath.FromSlash`: the separator is already `/`. -/
def FromSlash (p : List Char) : List Char := p

/-- The pieces of `s` between its separator characters, empty pieces included. -/
def splitBy (sep : Char → Bool) : List Char → List (List Char)
  | [] => [[]]
  | c :: cs =>
    if sep c then [] :: splitBy sep cs
    else
      match splitBy sep cs with
      | [] => [[c]]
      | s :: ss => (c :: s) :: ss

/-- Go `strings.FieldsFunc`: the non-empty pieces of `s` between separator characters. -/
def FieldsFunc (s : List Char) (sep : Char → Bool) : List (List Char) :=
  (splitBy sep s).filter (fun e => decide (e ≠ []))

/-- Go `os.IsPathSeparator` on Unix. -/
def IsPathSeparator (c : Char) : Bool := c == '/'

/-- The path elements of `p`: its non-empty pieces between slashes. -/
def elements (p : List Char) : List Name :=
  FieldsFunc p IsPathSeparator

/-- Whether `p` starts with the separator. -/
def isRooted : List Char → Bool
  | '/' :: _ => true
  | _ => false

/-- The element `.`. -/
def dot : Name := ['.']

/-- The element `..`. -/
def dotdot : Name := ['.', '.']

/-- One step of `filepath.Clean` over the elements kept so far (last kept element first):
`.` is dropped; `..` removes the element before it, is dropped at the root of a rooted path,
and is kept at the start of a relative path; any other element is kept. -/
def cleanStep (rooted : Bool) (stack : List Name) (e : Name) : List Name :=
  if e = dot then stack
  else if e = dotdot then
    match stack with
    | [] => if rooted then [] else [e]
    | t :: rest => if t = dotdot then e :: stack else rest
  else e :: stack

/-- The elements joined by single slashes. -/
def joinSlash : List Name → List Char
  | [] => []
  | [e] => e
  | e :: es => e ++ '/' :: joinSlash es

/-- The text of a cleaned path: a leading slash when rooted, `.` when relative and empty. -/
def render (rooted : Bool) (els : List Name) : List Char :=
  if rooted then '/' :: joinSlash els
  else
    match els with
    | [] => ['.']
    | _ :: _ => joinSlash els

/-- Go `filepath.Clean`, by its documented rules: multiple separators become one, `.` elements
are eliminated, an inner `..` is eliminated with the element before it, a `..` that begins a
rooted path is eliminated, and the empty result is `.`. -/
def Clean (p : List Char) : List Char :=
  render (isRooted p) ((elements p).foldl (cleanStep (isRooted p)) []).reverse

/-- Go `filepath.Join` of two elements: empty elements are ignored, the rest is joined by the
separator and cleaned; the join of nothing is the empty string. -/
def Join (a b : List Char) : List Char :=
  match a, b with
  | [], [] => []
  | [], _ :: _ => Clean b
  | _ :: _, _ => Clean (a ++ '/' :: b)

/-- The part of `p` up to and including its last slash. -/
def dirPart (p : List Char) : List Char :=
  (p.reverse.dropWhile (fun c => decide (c ≠ '/'))).reverse

/-- Go `filepath.Dir`: all but the last element of the path, cleaned. -/
def Dir (p : List Char) : List Char := Clean (dirPart p)

/-- The directory entries a cleaned path walks through, starting from the root directory.
In a cleaned path `.` stands alone and `..` only leads a relative path; with the working
directory at the root both name the root itself. -/
def components (p : List Char) : List Name :=
  (elements p).filter (fun e => decide (e ≠ dot ∧ e ≠ dotdot))

/-! ## The filesystem -/

/-- The error numbers the model can produce. -/
inductive Errno where
  | ENOENT
  | ENOTDIR
  | EISDIR
  | EEXIST
  | EINVAL
  | EBUSY
  deriving DecidableEq, Repr

/-- A filesystem object: a regular file with its content, or a directory with its entries. -/
inductive Node where
  | file (content : Bytes)
  | dir (entries : List (Name × Node))

/-- A filesystem state is its root object; the root of a mounted filesystem is a directory. -/
abbrev FS := Node

/-- Whether the object is a directory. -/
def Node.isDir : Node → Bool
  | .file _ => false
  | .dir _ => true

/-- The object under the name `x` in a list of directory entries. -/
def lookupEntry (x : Name) : List (Name × Node) → Option Node
  | [] => none
  | (y, n) :: es => if y = x then some n else lookupEntry x es

/-- The entries with the object under `x` replaced by `n`, or with `(x, n)` added. -/
def setEntry (x : Name) (n : Node) : List (Name × Node) → List (Name × Node)
  | [] => [(x, n)]
  | (y, m) :: es => if y = x then (y, n) :: es else (y, m) :: setEntry x n es

/-- The entries without the name `x`. -/
def eraseEntry (x : Name) (es : List (Name × Node)) : List (Name × Node) :=
  es.filter (fun e => decide (e.1 ≠ x))

/-- Path lookup: walking through a missing entry is `ENOENT`, walking through a regular file
is `ENOTDIR`. -/
def Node.get : Node → List Name → Except Errno Node
  | n, [] => .ok n
  | .file _, _ :: _ => .error .ENOTDIR
  | .dir es, x :: xs =>
    match lookupEntry x es with
    | none => .error .ENOENT
    | some c => c.get xs

/-- The tree after `os.MkdirAll`: every missing directory along the path is created; a regular
file at the path is `ENOTDIR`, a regular file above it is `EEXIST`, and then nothing is
created. -/
def Node.mkdirAll : Node → List Name → Except Errno Node
  | .file _, [] => .error .ENOTDIR
  | .file _, _ :: _ => .error .EEXIST
  | .dir es, [] => .ok (.dir es)
  | .dir es, x :: xs =>
    match ((lookupEntry x es).getD (.dir [])).mkdirAll xs with
    | .error e => .error e
    | .ok c => .ok (.dir (setEntry x c es))

/-- The tree after `open(O_RDWR|O_CREAT|O_TRUNC)`: a regular file is truncated, a missing last
element is created empty in its existing parent directory, a directory is `EISDIR`. -/
def Node.create : Node → List Name → Except Errno Node
  | .file _, [] => .ok (.file [])
  | .dir _, [] => .error .EISDIR
  | .file _, _ :: _ => .error .ENOTDIR
  | .dir es, x :: xs =>
    match lookupEntry x es with
    | none =>
      match xs with
      | [] => .ok (.dir (setEntry x (.file []) es))
      | _ :: _ => .error .ENOENT
    | some c =>
      match c.create xs with
      | .error e => .error e
      | .ok c1 => .ok (.dir (setEntry x c1 es))

/-- The tree after writing `data` at the end of the regular file at the path. -/
def Node.write : Node → List Name → Bytes → Except Errno Node
  | .file c, [], data => .ok (.file (c ++ data))
  | .dir _, [], _ => .error .EISDIR
  | .file _, _ :: _, _ => .error .ENOTDIR
  | .dir es, x :: xs, data =>
    match lookupEntry x es with
    | none => .error .ENOENT
    | some c =>
      match c.write xs data with
      | .error e => .error e
      | .ok c1 => .ok (.dir (setEntry x c1 es))

/-- The tree without the object at the path and everything below it; a path that cannot be
walked leaves the tree as it is. -/
def Node.remove : Node → List Name → Node
  | n, [] => n
  | .file c, _ :: _ => .file c
  | .dir es, x :: xs =>
    match xs with
    | [] => .dir (eraseEntry x es)
    | _ :: _ =>
      match lookupEntry x es with
      | none => .dir es
      | some c => .dir (setEntry x (c.remove xs) es)

/-- What can be observed of one object: its kind, and its content when it is a regular file. -/
inductive Entry where
  | file (content : Bytes)
  | dir
  deriving DecidableEq, Repr

/-- The kind and content of an object. -/
def Node.entry : Node → Entry
  | .file c => .file c
  | .dir _ => .dir

/-- The entry at a place of the tree, or why there is none. -/
def entryAt (fs : FS) (q : List Name) : Except Errno Entry :=
  match fs.get q with
  | .error e => .error e
  | .ok n => .ok n.entry

/-- What `os.Stat` reports about an object. -/
structure FileInfo where
  IsDir : Bool
  deriving DecidableEq, Repr

/-- What `os.ReadDir` reports about one child of a directory. -/
structure DirEnt where
  Name : Name
  IsDir : Bool
  deriving DecidableEq, Repr

/-- Go `os.IsNotExist` on a Unix error number: only `ENOENT`. -/
def IsNotExist : Errno → Bool
  | .ENOENT => true
  | _ => false

/-- Go `os.Stat`: the empty path names nothing. -/
def Stat (fs : FS) (path : List Char) : Except Errno FileInfo :=
  match path with
  | [] => .error .ENOENT
  | _ :: _ =>
    match fs.get (components path) with
    | .error e => .error e
    | .ok n => .ok { IsDir := n.isDir }

/-- Byte-wise order of names, the order of `os.ReadDir`. -/
def nameLe : Name → Name → Bool
  | [], _ => true
  | _ :: _, [] => false
  | a :: as, b :: bs =>
    if a.toNat < b.toNat then true
    else if b.toNat < a.toNat then false
    else nameLe as bs

/-- Go `os.ReadDir`: the children of a directory, sorted by filename. -/
def ReadDir (fs : FS) (path : List Char) : Except Errno (List DirEnt) :=
  match path with
  | [] => .error .ENOENT
  | _ :: _ =>
    match fs.get (components path) with
    | .error e => .error e
    | .ok (.file _) => .error .ENOTDIR
    | .ok (.dir es) =>
      .ok ((es.map (fun e => ({ Name := e.1, IsDir := e.2.isDir } : DirEnt))).insertionSort
        (fun a b => nameLe a.Name b.Name = true))

/-- Go `os.MkdirAll`. -/
def MkdirAll (fs : FS) (path : List Char) : Except Errno FS :=
  match path with
  | [] => .error .ENOENT
  | _ :: _ => fs.mkdirAll (components path)

/-- An open file: the place in the tree it was opened at. -/
structure File where
  place : List Name
  deriving DecidableEq, Repr

/-- Go `os.Create`: the opened file and the tree with the file created or truncated. -/
def Create (fs : FS) (path : List Char) : Except Errno (File × FS) :=
  match path with
  | [] => .error .ENOENT
  | _ :: _ =>
    match fs.create (components path) with
    | .error e => .error e
    | .ok fs1 => .ok ({ place := components path }, fs1)

/-- Go `io.Copy(file, body)`: the whole body is written to the file; the result is the number
of bytes written and the next tree. -/
def ioCopy (fs : FS) (file : File) (body : Bytes) : Except Errno (Nat × FS) :=
  match fs.write file.place body with
  | .error e => .error e
  | .ok fs1 => .ok (body.length, fs1)

/-- The test of `os.RemoveAll` for a path that is `.` or ends in `/.`. -/
def endsWithDot (path : List Char) : Bool :=
  match path.reverse with
  | ['.'] => true
  | '.' :: '/' :: _ => true
  | _ => false

/-- Go `os.RemoveAll`: the error, if any, and the next tree.  The empty path is accepted and
does nothing; a path ending in a dot is `EINVAL`; the root directory is emptied but cannot be
removed itself (`EBUSY`); a path through a regular file is `ENOTDIR`; a missing path is no
error. -/
def RemoveAll (fs : FS) (path : List Char) : Option Errno × FS :=
  match path with
  | [] => (none, fs)
  | _ :: _ =>
    if endsWithDot path then (some .EINVAL, fs)
    else
      match components path with
      | [] =>
        match fs with
        | .dir _ => (some .EBUSY, .dir [])
        | .file c => (some .EBUSY, .file c)
      | x :: xs =>
        match fs.get (x :: xs) with
        | .error .ENOTDIR => (some .ENOTDIR, fs)
        | _ => (none, fs.remove (x :: xs))

/-! ## `net/http` and `encoding/json` -/

/-- The URL of a request. -/
structure URL where
  Path : String

/-- An HTTP request: method, URL and body. -/
structure Request where
  Method : String
  URL : URL
  Body : Bytes

/-- An HTTP response: status code, the headers the model tracks, and body. -/
structure Response where
  status : Nat
  header : List (String × String)
  body : Bytes
  deriving DecidableEq, Repr

/-- The status codes of `net/http` the server uses. -/
def StatusOK : Nat := 200
def StatusCreated : Nat := 201
def StatusMovedPermanently : Nat := 301
def StatusBadRequest : Nat := 400
def StatusNotFound : Nat := 404
def StatusMethodNotAllowed : Nat := 405
def StatusInternalServerError : Nat := 500

/-- Go `http.Error`: a plain-text reply whose body is the message and a newline. -/
def httpError (msg : String) (code : Nat) : Response :=
  { status := code
    header :=
      [("Content-Type", "text/plain; charset=utf-8"), ("X-Content-Type-Options", "nosniff")]
    body := utf8Encode (msg.toList ++ ['\n']) }

/-- Go `w.WriteHeader(code)` as the only write: a status with no header set and no body. -/
def writeHeader (code : Nat) : Response :=
  { status := code, header := [], body := [] }

/-- The separator test of `net/http` for `..` elements: slash or backslash. -/
def isSlashRune (c : Char) : Bool := c == '/' || c == '\\'

/-- The test of `net/http` for a `..` element in a URL path. -/
def containsDotDot (v : List Char) : Bool :=
  (FieldsFunc v isSlashRune).any (fun ent => decide (ent = dotdot))

/-- The reply of `net/http` to a file that cannot be opened. -/
def toHTTPError (e : Errno) : Response :=
  match e with
  | .ENOENT => httpError "404 page not found" StatusNotFound
  | .ENOTDIR => httpError "404 page not found" StatusNotFound
  | _ => httpError "500 Internal Server Error" StatusInternalServerError

/-- Go `http.ServeFile` for a request without conditional or range headers.  A URL path with a
`..` element is rejected with 400, a URL path ending in `/index.html` is redirected to `./`,
and a regular file is served whole with status 200.  The headers `net/http` derives from the
file (type by extension or content, length, modification time) are not kept.  `handleGet`
calls `ServeFile` only after `Stat` has reported a regular file; of the page `net/http` would
write for a directory only the status and the content type are given. -/
def ServeFile (fs : FS) (r : Request) (name : List Char) : Response :=
  if containsDotDot r.URL.Path.toList then httpError "invalid URL path" StatusBadRequest
  else if hasSuffix r.URL.Path.toList "/index.html".toList then
    { status := StatusMovedPermanently, header := [("Location", "./")], body := [] }
  else
    match fs.get (components name) with
    | .error e => toHTTPError e
    | .ok (.file content) => { status := StatusOK, header := [], body := content }
    | .ok (.dir _) =>
      { status := StatusOK, header := [("Content-Type", "text/html; charset=utf-8")], body := [] }

/-- DirEntry represents a single file or directory in JSON (`src/dir_entry.go`); `Typ` is the
Go field `Type`. -/
structure DirEntry where
  Name : List Char
  Typ : String
  deriving DecidableEq, Repr

/-- A hexadecimal digit, lower case. -/
def hexDigit (n : Nat) : Char :=
  if n < 10 then Char.ofNat (48 + n) else Char.ofNat (87 + n)

/-- How `encoding/json` writes one character of a string (HTML escaping on, the default of an
encoder): quote and backslash get a backslash, the control characters their short or `\u00XX`
form, `<`, `>` and `&` their `\u00XX` form, U+2028 and U+2029 their `\u202X` form. -/
def jsonEscape (c : Char) : List Char :=
  if c = '"' ∨ c = '\\' then ['\\', c]
  else if c = Char.ofNat 8 then ['\\', 'b']
  else if c = Char.ofNat 12 then ['\\', 'f']
  else if c = '\n' then ['\\', 'n']
  else if c = '\r' then ['\\', 'r']
  else if c = '\t' then ['\\', 't']
  else if c.toNat < 32 ∨ c = '<' ∨ c = '>' ∨ c = '&' then
    ['\\', 'u', '0', '0', hexDigit (c.toNat / 16), hexDigit (c.toNat % 16)]
  else if c = Char.ofNat 8232 ∨ c = Char.ofNat 8233 then
    ['\\', 'u', '2', '0', '2', hexDigit (c.toNat % 16)]
  else [c]

/-- A JSON string literal. -/
def jsonString (s : List Char) : List Char :=
  '"' :: (s.map jsonEscape).flatten ++ ['"']

/-- The JSON object of one `DirEntry`, with the field names of its struct tags. -/
def jsonDirEntry (e : DirEntry) : List Char :=
  "\x7b\"name\":".toList ++ jsonString e.Name ++ ",\"type\":".toList ++ jsonString e.Typ.toList
    ++ ['}']

/-- The elements of a JSON array separated by commas. -/
def jsonElements : List (List Char) → List Char
  | [] => []
  | [x] => x
  | x :: xs => x ++ ',' :: jsonElements xs

/-- What `json.NewEncoder(w).Encode(entries)` writes for a non-nil slice: the array and a
newline. -/
def jsonEncode (entries : List DirEntry) : List Char :=
  '[' :: jsonElements (entries.map jsonDirEntry) ++ [']', '\n']

/-! ## The server (`src/server.go`) -/

/-- The server: the directory it serves. -/
structure Server where
  BaseDir : String

/-- The local path both a handler computes from the request:
`filepath.Join(s.BaseDir, filepath.FromSlash(strings.TrimPrefix(r.URL.Path, "/")))`. -/
def Server.localPath (s : Server) (r : Request) : List Char :=
  Join s.BaseDir.toList (FromSlash (TrimPrefix r.URL.Path.toList))

/-- The loop of `handleGet` over the directory's children: one `DirEntry` is appended per
child, of type `dir` for a directory and `file` otherwise. -/
def dirEntries (files : List DirEnt) : List DirEntry :=
  files.foldl
    (fun entries f => entries ++ [{ Name := f.Name, Typ := if f.IsDir then "dir" else "file" }])
    []

/-- handleGet serves files from baseDir or returns a JSON directory listing.  Encoding a slice
of `DirEntry` cannot fail, and writing to the client is outside the model, so the branch that
reports an encoding error is never taken and has no counterpart here. -/
def Server.handleGet (s : Server) (fs : FS) (r : Request) : Response :=
  let path := s.localPath r
  match Stat fs path with
  | .error err =>
    if IsNotExist err then httpError "404 not found" StatusNotFound
    else httpError "Internal server error" StatusInternalServerError
  | .ok info =>
    if info.IsDir then
      match ReadDir fs path with
      | .error _ => httpError "Internal server error" StatusInternalServerError
      | .ok files =>
        { status := StatusOK
          header := [("Content-Type", "application/json")]
          body := utf8Encode (jsonEncode (dirEntries files)) }
    else ServeFile fs r path

/-- handlePut writes the request body to a file under baseDir.  `defer file.Close()` has no
effect on the tree. -/
def Server.handlePut (s : Server) (fs : FS) (r : Request) : Response × FS :=
  let path := s.localPath r
  match MkdirAll fs (Dir path) with
  | .error _ => (httpError "Could not create directories" StatusInternalServerError, fs)
  | .ok fs1 =>
    match Create fs1 path with
    | .error _ => (httpError "Could not create file" StatusInternalServerError, fs1)
    | .ok (file, fs2) =>
      match ioCopy fs2 file r.Body with
      | .error _ => (httpError "Error writing file" StatusInternalServerError, fs2)
      | .ok (_, fs3) => (writeHeader StatusCreated, fs3)

/-- handleDelete removes the file or directory at the given path. -/
def Server.handleDelete (s : Server) (fs : FS) (r : Request) : Response × FS :=
  let path := s.localPath r
  match Stat fs path with
  | .error err =>
    if IsNotExist err then (httpError "404 not found" StatusNotFound, fs)
    else (httpError "Internal server error" StatusInternalServerError, fs)
  | .ok _ =>
    match RemoveAll fs path with
    | (some _, fs1) =>
      (httpError "Could not delete file or directory" StatusInternalServerError, fs1)
    | (none, fs1) => (writeHeader StatusOK, fs1)

/-- ServeHTTP dispatches on the request method. -/
def Server.ServeHTTP (s : Server) (fs : FS) (r : Request) : Response × FS :=
  match r.Method with
  | "GET" => (s.handleGet fs r, fs)
  | "PUT" => s.handlePut fs r
  | "DELETE" => s.handleDelete fs r
  | _ => (httpError "Method not allowed" StatusMethodNotAllowed, fs)

/-! # Lemmas and theorems -/

/-! ## The path functions on the examples of Go's own tests -/

/-- `Clean` on the table of `path/filepath`'s tests. -/
theorem Clean_examples :
    [ "abc", "abc/def", "a/b/c", ".", "..", "../..", "../../abc", "/abc", "/", "",
      "abc/", "abc/def/", "a/b/c/", "./", "../", "../../", "/abc/",
      "abc//def//ghi", "//abc", "///abc", "//abc//", "abc//",
      "abc/./def", "/./abc/def", "abc/.",
      "abc/def/ghi/../jkl", "abc/def/../ghi/../jkl", "abc/def/..", "abc/def/../..",
      "/abc/def/../..", "abc/def/../../..", "/abc/def/../../..",
      "abc/def/../../../ghi/jkl/../../../mno", "/../abc", "a/../b:/../../c",
      "abc/./../def", "abc//./../def", "abc/../../././../def" ].map
        (fun p => String.mk (Clean p.toList))
      = [ "abc", "abc/def", "a/b/c", ".", "..", "../..", "../../abc", "/abc", "/", ".",
          "abc", "abc/def", "a/b/c", ".", "..", "../..", "/abc",
          "abc/def/ghi", "/abc", "/abc", "/abc", "abc",
          "abc/def", "/abc/def", "abc",
          "abc/def/jkl", "abc/jkl", "abc", ".",
          "/", "..", "/",
          "../../mno", "/abc", "../c",
          "def", "def", "../../def" ] := by
  decide

/-- `Join` and `Dir` on the tables of `path/filepath`'s tests. -/
theorem Join_Dir_examples :
    [("a", "b"), ("a", ""), ("", "b"), ("/", "a"), ("/", ""), ("a/", "b"), ("a/", ""),
      ("", "")].map (fun p => String.mk (Join p.1.toList p.2.toList))
        = ["a/b", "a", "b", "/a", "/", "a/b", "a", ""]
      ∧ ["", ".", "/.", "/", "/foo", "x/", "abc", "abc/def", "a/b/.x", "a/b/c.",
          "a/b/c.x"].map (fun p => String.mk (Dir p.toList))
        = [".", ".", "/", "/", "/", "x", ".", "abc", "a/b", "a/b", "a/b"] := by
  decide

/-- The JSON encoder on a name that needs escaping. -/
theorem jsonEncode_example :
    String.mk (jsonEncode [{ Name := "a\"b\\c<d>e&f\n\t".toList, Typ := "file" }])
      = "[\x7b\"name\":\"a\\\"b\\\\c\\u003cd\\u003ee\\u0026f\\n\\t\",\"type\":\"file\"\x7d]\n" := by
  decide

/-! ## Directory entries -/

theorem lookupEntry_setEntry_eq (x : Name) (n : Node) (es : List (Name × Node)) :
    lookupEntry x (setEntry x n es) = some n := by
  induction es with
  | nil => simp [setEntry, lookupEntry]
  | cons e es ih =>
    obtain ⟨y, m⟩ := e
    by_cases h : y = x
    · simp [setEntry, lookupEntry, h]
    · simp [setEntry, lookupEntry, h, ih]

theorem lookupEntry_setEntry_ne {x y : Name} (h : y ≠ x) (n : Node) (es : List (Name × Node)) :
    lookupEntry y (setEntry x n es) = lookupEntry y es := by
  induction es with
  | nil => simp [setEntry, lookupEntry, Ne.symm h]
  | cons e es ih =>
    obtain ⟨z, m⟩ := e
    by_cases hz : z = x
    · subst hz
      simp [setEntry, lookupEntry, Ne.symm h]
    · by_cases hy : z = y
      · subst hy
        simp [setEntry, lookupEntry, hz]
      · simp [setEntry, lookupEntry, hz, hy, ih]

theorem setEntry_self {x : Name} {n : Node} {es : List (Name × Node)}
    (h : lookupEntry x es = some n) : setEntry x n es = es := by
  induction es with
  | nil => simp [lookupEntry] at h
  | cons e es ih =>
    obtain ⟨y, m⟩ := e
    by_cases hy : y = x
    · simp [lookupEntry, hy] at h
      simp [setEntry, hy, h]
    · simp [lookupEntry, hy] at h
      simp [setEntry, hy, ih h]

theorem setEntry_setEntry (x : Name) (n m : Node) (es : List (Name × Node)) :
    setEntry x n (setEntry x m es) = setEntry x n es := by
  induction es with
  | nil => simp [setEntry]
  | cons e es ih =>
    obtain ⟨y, k⟩ := e
    by_cases hy : y = x
    · simp [setEntry, hy]
    · simp [setEntry, hy, ih]

theorem lookupEntry_eraseEntry_eq (x : Name) (es : List (Name × Node)) :
    lookupEntry x (eraseEntry x es) = none := by
  induction es with
  | nil => simp [eraseEntry, lookupEntry]
  | cons e es ih =>
    obtain ⟨y, m⟩ := e
    by_cases hy : y = x
    · simpa [eraseEntry, hy] using ih
    · simpa [eraseEntry, hy, lookupEntry] using ih

theorem lookupEntry_eraseEntry_ne {x y : Name} (h : y ≠ x) (es : List (Name × Node)) :
    lookupEntry y (eraseEntry x es) = lookupEntry y es := by
  induction es with
  | nil => simp [eraseEntry, lookupEntry]
  | cons e es ih =>
    obtain ⟨z, m⟩ := e
    by_cases hz : z = x
    · subst hz
      have hzy : ¬ z = y := fun h1 => h h1.symm
      simpa [eraseEntry, lookupEntry, hzy] using ih
    · by_cases hy : z = y
      · subst hy
        simp [eraseEntry, lookupEntry, hz]
      · simpa [eraseEntry, lookupEntry, hz, hy] using ih


/-! ## Path lookup -/

theorem get_nil (n : Node) : n.get [] = .ok n := by
  cases n <;> rfl

theorem get_file_cons (c : Bytes) (x : Name) (xs : List Name) :
    (Node.file c).get (x :: xs) = .error .ENOTDIR := rfl

theorem get_dir_cons (es : List (Name × Node)) (x : Name) (xs : List Name) :
    (Node.dir es).get (x :: xs) =
      match lookupEntry x es with
      | none => .error .ENOENT
      | some c => c.get xs := rfl

/-- Lookup fails only with `ENOENT` or `ENOTDIR`. -/
theorem get_error_cases {n : Node} {cs : List Name} {e : Errno} (h : n.get cs = .error e) :
    e = .ENOENT ∨ e = .ENOTDIR := by
  induction cs generalizing n with
  | nil => simp [get_nil] at h
  | cons x xs ih =>
    cases n with
    | file c =>
      simp [get_file_cons] at h
      exact Or.inr h.symm
    | dir es =>
      rw [get_dir_cons] at h
      cases hl : lookupEntry x es with
      | none =>
        simp [hl] at h
        exact Or.inl h.symm
      | some c =>
        simp [hl] at h
        exact ih h

theorem remove_dir_single (es : List (Name × Node)) (x : Name) :
    (Node.dir es).remove [x] = .dir (eraseEntry x es) := rfl

theorem remove_dir_cons (es : List (Name × Node)) (x y : Name) (ys : List Name) :
    (Node.dir es).remove (x :: y :: ys) =
      match lookupEntry x es with
      | none => .dir es
      | some c => .dir (setEntry x (c.remove (y :: ys)) es) := rfl

/-- After the removal of an existing object nothing is found at its place or below it. -/
theorem remove_get_below {n m : Node} {cs : List Name} (h : n.get cs = .ok m) (hne : cs ≠ [])
    (q : List Name) : (n.remove cs).get (cs ++ q) = .error .ENOENT := by
  induction cs generalizing n with
  | nil => exact absurd rfl hne
  | cons x xs ih =>
    cases n with
    | file c => simp [get_file_cons] at h
    | dir es =>
      rw [get_dir_cons] at h
      cases hl : lookupEntry x es with
      | none => simp [hl] at h
      | some c =>
        simp only [hl] at h
        cases xs with
        | nil =>
          rw [remove_dir_single, List.cons_append, get_dir_cons, lookupEntry_eraseEntry_eq]
        | cons y ys =>
          rw [remove_dir_cons, hl]
          simp only []
          rw [List.cons_append, get_dir_cons, lookupEntry_setEntry_eq]
          exact ih h (by simp)

/-- Removal changes no entry outside the removed subtree. -/
theorem remove_entryAt (n : Node) (cs q : List Name) (h : ¬ cs <+: q) :
    entryAt (n.remove cs) q = entryAt n q := by
  induction cs generalizing n q with
  | nil => exact absurd (List.nil_prefix) h
  | cons x xs ih =>
    cases n with
    | file c => rfl
    | dir es =>
      cases q with
      | nil =>
        cases xs with
        | nil => simp [remove_dir_single, entryAt, get_nil, Node.entry]
        | cons y ys =>
          rw [remove_dir_cons]
          cases lookupEntry x es <;> simp [entryAt, get_nil, Node.entry]
      | cons z zs =>
        by_cases hzx : z = x
        · subst hzx
          have hxs : ¬ xs <+: zs := by
            intro hp
            exact h ((List.prefix_cons_inj z).mpr hp)
          cases xs with
          | nil => exact absurd (List.nil_prefix) hxs
          | cons y ys =>
            rw [remove_dir_cons]
            cases hl : lookupEntry z es with
            | none => rfl
            | some c =>
              simp only []
              have := ih c zs hxs
              simpa [entryAt, get_dir_cons, lookupEntry_setEntry_eq, hl] using this
        · cases xs with
          | nil =>
            simp [remove_dir_single, entryAt, get_dir_cons, lookupEntry_eraseEntry_ne hzx]
          | cons y ys =>
            rw [remove_dir_cons]
            cases hl : lookupEntry x es with
            | none => rfl
            | some c =>
              simp [entryAt, get_dir_cons, lookupEntry_setEntry_ne hzx]
/-! ## C3: dispatch on the method -/

/-- C3: a request whose method is not exactly GET, PUT or DELETE is answered with status 405
and leaves the filesystem as it was, for every URL path and filesystem state; GET, PUT and
DELETE are handed to handleGet, handlePut and handleDelete. -/
theorem C3_ServeHTTP_dispatch (s : Server) (fs : FS) (m : String) (u : URL) (body : Bytes)
    (h : m ≠ "GET" ∧ m ≠ "PUT" ∧ m ≠ "DELETE") :
    s.ServeHTTP fs ⟨m, u, body⟩ = (httpError "Method not allowed" 405, fs)
      ∧ (s.ServeHTTP fs ⟨m, u, body⟩).1.status = 405
      ∧ (s.ServeHTTP fs ⟨m, u, body⟩).2 = fs
      ∧ s.ServeHTTP fs ⟨"GET", u, body⟩ = (s.handleGet fs ⟨"GET", u, body⟩, fs)
      ∧ s.ServeHTTP fs ⟨"PUT", u, body⟩ = s.handlePut fs ⟨"PUT", u, body⟩
      ∧ s.ServeHTTP fs ⟨"DELETE", u, body⟩ = s.handleDelete fs ⟨"DELETE", u, body⟩ := by
  obtain ⟨h1, h2, h3⟩ := h
  have key : s.ServeHTTP fs ⟨m, u, body⟩ = (httpError "Method not allowed" 405, fs) := by
    unfold Server.ServeHTTP
    split
    · rename_i heq
      exact absurd heq h1
    · rename_i heq
      exact absurd heq h2
    · rename_i heq
      exact absurd heq h3
    · rfl
  refine ⟨key, ?_, ?_, rfl, rfl, rfl⟩
  · rw [key]; rfl
  · rw [key]

/-- C3 at PATCH, POST, HEAD, the empty method and lower-case `get`, on the path `/a`. -/
theorem C3_ServeHTTP_dispatch_witness :
    ("PATCH" ≠ "GET" ∧ "PATCH" ≠ "PUT" ∧ "PATCH" ≠ "DELETE")
      ∧ ((⟨"/srv"⟩ : Server).ServeHTTP (.dir []) ⟨"PATCH", ⟨"/a"⟩, []⟩).1.status = 405
      ∧ ((⟨"/srv"⟩ : Server).ServeHTTP (.dir []) ⟨"POST", ⟨"/a"⟩, []⟩).1.status = 405
      ∧ ((⟨"/srv"⟩ : Server).ServeHTTP (.dir []) ⟨"HEAD", ⟨"/a"⟩, []⟩).1.status = 405
      ∧ ((⟨"/srv"⟩ : Server).ServeHTTP (.dir []) ⟨"", ⟨"/a"⟩, []⟩).1.status = 405
      ∧ ((⟨"/srv"⟩ : Server).ServeHTTP (.dir []) ⟨"get", ⟨"/a"⟩, []⟩).1.status = 405 :=
  ⟨by decide,
   (C3_ServeHTTP_dispatch ⟨"/srv"⟩ (.dir []) "PATCH" ⟨"/a"⟩ [] (by decide)).2.1,
   (C3_ServeHTTP_dispatch ⟨"/srv"⟩ (.dir []) "POST" ⟨"/a"⟩ [] (by decide)).2.1,
   (C3_ServeHTTP_dispatch ⟨"/srv"⟩ (.dir []) "HEAD" ⟨"/a"⟩ [] (by decide)).2.1,
   (C3_ServeHTTP_dispatch ⟨"/srv"⟩ (.dir []) "" ⟨"/a"⟩ [] (by decide)).2.1,
   (C3_ServeHTTP_dispatch ⟨"/srv"⟩ (.dir []) "get" ⟨"/a"⟩ [] (by decide)).2.1⟩
/-! ## C7: the directory listing -/

theorem Stat_ok {fs : FS} {path : List Char} {info : FileInfo} (h : Stat fs path = .ok info) :
    path ≠ [] ∧ ∃ n, fs.get (components path) = .ok n ∧ info = { IsDir := n.isDir } := by
  unfold Stat at h
  cases path with
  | nil => simp at h
  | cons c cs =>
    simp only [] at h
    cases hg : fs.get (components (c :: cs)) with
    | error e => simp [hg] at h
    | ok n =>
      simp only [hg] at h
      injection h with h
      exact ⟨by simp, n, rfl, h.symm⟩

theorem Stat_error_of_get {fs : FS} {path : List Char} {e : Errno}
    (h : fs.get (components path) = .error e) (hp : path ≠ []) : Stat fs path = .error e := by
  unfold Stat
  cases path with
  | nil => exact absurd rfl hp
  | cons c cs => simp only [h]

/-- The existence check fails only with `ENOENT` or `ENOTDIR`. -/
theorem Stat_error_cases {fs : FS} {path : List Char} {e : Errno} (h : Stat fs path = .error e) :
    e = .ENOENT ∨ e = .ENOTDIR := by
  unfold Stat at h
  cases path with
  | nil =>
    simp at h
    exact Or.inl h.symm
  | cons c cs =>
    simp only [] at h
    cases hg : fs.get (components (c :: cs)) with
    | error e1 =>
      simp only [hg] at h
      injection h with h
      subst h
      exact get_error_cases hg
    | ok n => simp [hg] at h

theorem handleGet_of_Stat_error (s : Server) (fs : FS) (r : Request) {e : Errno}
    (h : Stat fs (s.localPath r) = .error e) :
    s.handleGet fs r =
      if IsNotExist e then httpError "404 not found" StatusNotFound
      else httpError "Internal server error" StatusInternalServerError := by
  unfold Server.handleGet
  simp only [h]

theorem handleDelete_of_Stat_error (s : Server) (fs : FS) (r : Request) {e : Errno}
    (h : Stat fs (s.localPath r) = .error e) :
    s.handleDelete fs r =
      if IsNotExist e then (httpError "404 not found" StatusNotFound, fs)
      else (httpError "Internal server error" StatusInternalServerError, fs) := by
  unfold Server.handleDelete
  simp only [h]

theorem handleDelete_of_Stat_ok (s : Server) (fs : FS) (r : Request) {info : FileInfo}
    (h : Stat fs (s.localPath r) = .ok info) :
    s.handleDelete fs r =
      match RemoveAll fs (s.localPath r) with
      | (some _, fs1) =>
        (httpError "Could not delete file or directory" StatusInternalServerError, fs1)
      | (none, fs1) => (writeHeader StatusOK, fs1) := by
  unfold Server.handleDelete
  simp only [h]

/-- A removal that reports no error for an existing object has removed it. -/
theorem RemoveAll_of_ok {fs : FS} {path : List Char} {n : Node}
    (hg : fs.get (components path) = .ok n) (hrm : (RemoveAll fs path).1 = none)
    (hp : path ≠ []) :
    components path ≠ [] ∧ RemoveAll fs path = (none, fs.remove (components path)) := by
  unfold RemoveAll at hrm ⊢
  cases path with
  | nil => exact absurd rfl hp
  | cons c cs =>
    simp only [] at hrm ⊢
    by_cases hd : endsWithDot (c :: cs) = true
    · simp [hd] at hrm
    · simp only [hd] at hrm ⊢
      cases hc : components (c :: cs) with
      | nil =>
        simp only [hc] at hrm
        cases fs <;> simp at hrm
      | cons x xs =>
        rw [hc] at hg
        simp [hg]

/-- The tree after RemoveAll differs from the tree before only inside the removed subtree. -/
theorem RemoveAll_entryAt (fs : FS) (path : List Char) (q : List Name)
    (h : ¬ components path <+: q) :
    entryAt (RemoveAll fs path).2 q = entryAt fs q := by
  unfold RemoveAll
  cases path with
  | nil => rfl
  | cons c cs =>
    simp only []
    by_cases hd : endsWithDot (c :: cs) = true
    · simp [hd]
    · cases hc : components (c :: cs) with
      | nil =>
        rw [hc] at h
        exact absurd List.nil_prefix h
      | cons x xs =>
        rw [hc] at h
        have hr := remove_entryAt fs (x :: xs) q h
        cases hg : fs.get (x :: xs) with
        | error e => cases e <;> simp [hd, hg, hr]
        | ok n => simp [hd, hg, hr]
/-! ## C5: DELETE of a directory -/

/-- C5: when the resolved path of P is an existing directory and its removal succeeds,
handleDelete answers 200 with an empty body, the resulting filesystem has no entry at the
resolved path nor at any place below it, and a following GET on P or on any path that resolves
to a former descendant of P answers 404. -/
theorem C5_handleDelete_removes_directory (s : Server) (fs : FS) (r : Request)
    (hdir : Stat fs (s.localPath r) = .ok { IsDir := true })
    (hrm : (RemoveAll fs (s.localPath r)).1 = none) :
    (s.handleDelete fs r).1 = writeHeader 200
      ∧ (s.handleDelete fs r).1.status = 200
      ∧ (∀ q, (s.handleDelete fs r).2.get (components (s.localPath r) ++ q) = .error .ENOENT)
      ∧ (s.handleGet (s.handleDelete fs r).2 ⟨"GET", r.URL, []⟩).status = 404
      ∧ (∀ r2 : Request, components (s.localPath r) <+: components (s.localPath r2) →
          (s.handleGet (s.handleDelete fs r).2 r2).status = 404) := by
  obtain ⟨hp, n, hg, _⟩ := Stat_ok hdir
  obtain ⟨hne, hR⟩ := RemoveAll_of_ok hg hrm hp
  have hD : s.handleDelete fs r = (writeHeader StatusOK, fs.remove (components (s.localPath r))) := by
    rw [handleDelete_of_Stat_ok s fs r hdir, hR]
  have hbelow : ∀ q, (fs.remove (components (s.localPath r))).get
      (components (s.localPath r) ++ q) = .error .ENOENT :=
    fun q => remove_get_below hg hne q
  have hget : ∀ r2 : Request, components (s.localPath r) <+: components (s.localPath r2) →
      (s.handleGet (fs.remove (components (s.localPath r))) r2).status = 404 := by
    rintro r2 ⟨q, hq⟩
    have hS : Stat (fs.remove (components (s.localPath r))) (s.localPath r2) = .error .ENOENT := by
      by_cases hp2 : s.localPath r2 = []
      · rw [hp2]; rfl
      · apply Stat_error_of_get _ hp2
        rw [← hq]
        exact hbelow q
    rw [handleGet_of_Stat_error s _ r2 hS]
    rfl
  rw [hD]
  refine ⟨rfl, rfl, hbelow, ?_, hget⟩
  exact hget ⟨"GET", r.URL, []⟩ (List.prefix_refl _)

/-- C5 on the tree `/srv/d/{x, e/y}`: DELETE `/d`, then GET `/d/e/y`. -/
theorem C5_handleDelete_removes_directory_witness :
    Stat (.dir [("srv".toList,
        .dir [(['d'], .dir [(['x'], .file [1]), (['e'], .dir [(['y'], .file [2])])])])])
        ((⟨"/srv"⟩ : Server).localPath ⟨"DELETE", ⟨"/d"⟩, []⟩) = .ok { IsDir := true }
      ∧ (RemoveAll (.dir [("srv".toList,
        .dir [(['d'], .dir [(['x'], .file [1]), (['e'], .dir [(['y'], .file [2])])])])])
        ((⟨"/srv"⟩ : Server).localPath ⟨"DELETE", ⟨"/d"⟩, []⟩)).1 = none
      ∧ ((⟨"/srv"⟩ : Server).handleGet
          ((⟨"/srv"⟩ : Server).handleDelete (.dir [("srv".toList,
            .dir [(['d'], .dir [(['x'], .file [1]), (['e'], .dir [(['y'], .file [2])])])])])
            ⟨"DELETE", ⟨"/d"⟩, []⟩).2
          ⟨"GET", ⟨"/d/e/y"⟩, []⟩).status = 404 :=
  ⟨by rfl, by rfl,
   (C5_handleDelete_removes_directory ⟨"/srv"⟩ (.dir [("srv".toList,
        .dir [(['d'], .dir [(['x'], .file [1]), (['e'], .dir [(['y'], .file [2])])])])])
      ⟨"DELETE", ⟨"/d"⟩, []⟩ (by rfl) (by rfl)).2.2.2.2 ⟨"GET", ⟨"/d/e/y"⟩, []⟩
      ⟨["e".toList, "y".toList], by rfl⟩⟩

/-! ## C6: what DELETE leaves alone -/

/-- C6, as stated, fails: on the tree `/srv/a` with `a` a regular file, nothing exists at
`/srv/a/b`, and DELETE `/a/b` answers 500, not 404. -/
theorem C6_counterexample :
    (Node.dir [("srv".toList, .dir [(['a'], .file [1])])]).get
        (components ((⟨"/srv"⟩ : Server).localPath ⟨"DELETE", ⟨"/a/b"⟩, []⟩))
        = .error .ENOTDIR
      ∧ ((⟨"/srv"⟩ : Server).handleDelete (.dir [("srv".toList, .dir [(['a'], .file [1])])])
          ⟨"DELETE", ⟨"/a/b"⟩, []⟩).1.status = 500
      ∧ ((⟨"/srv"⟩ : Server).handleDelete (.dir [("srv".toList, .dir [(['a'], .file [1])])])
          ⟨"DELETE", ⟨"/a/b"⟩, []⟩).1.status ≠ 404 :=
  ⟨by rfl, by rfl, by decide⟩

/-- C6, amended: handleDelete changes no entry outside the subtree of the resolved path (every
place that is neither the resolved path nor below it holds the same kind of object with the
same content, or is missing for the same reason, as before); when the existence check reports
that P does not exist the response is 404 and the filesystem is unchanged; and whenever the
existence check fails for any reason the filesystem is unchanged. -/
theorem C6_handleDelete_frame (s : Server) (fs : FS) (r : Request) :
    (∀ q, ¬ components (s.localPath r) <+: q →
        entryAt (s.handleDelete fs r).2 q = entryAt fs q)
      ∧ (Stat fs (s.localPath r) = .error .ENOENT →
          s.handleDelete fs r = (httpError "404 not found" 404, fs))
      ∧ (∀ e, Stat fs (s.localPath r) = .error e → (s.handleDelete fs r).2 = fs) := by
  refine ⟨?_, ?_, ?_⟩
  · intro q hq
    cases hS : Stat fs (s.localPath r) with
    | error e =>
      rw [handleDelete_of_Stat_error s fs r hS]
      cases IsNotExist e <;> rfl
    | ok info =>
      rw [handleDelete_of_Stat_ok s fs r hS]
      have h := RemoveAll_entryAt fs (s.localPath r) q hq
      rcases hR : RemoveAll fs (s.localPath r) with ⟨_ | e, fs1⟩ <;> rw [hR] at h <;> exact h
  · intro hS
    rw [handleDelete_of_Stat_error s fs r hS]
    rfl
  · intro e hS
    rw [handleDelete_of_Stat_error s fs r hS]
    cases IsNotExist e <;> rfl

/-- C6 amended, on the tree `/srv/{d/x, k}`: DELETE `/d` leaves `/srv/k` as it was, and DELETE
of the missing `/z` answers 404 and changes nothing. -/
theorem C6_handleDelete_frame_witness :
    entryAt ((⟨"/srv"⟩ : Server).handleDelete
        (.dir [("srv".toList, .dir [(['d'], .dir [(['x'], .file [1])]), (['k'], .file [2])])])
        ⟨"DELETE", ⟨"/d"⟩, []⟩).2 ["srv".toList, ['k']] = .ok (.file [2])
      ∧ (⟨"/srv"⟩ : Server).handleDelete
        (.dir [("srv".toList, .dir [(['d'], .dir [(['x'], .file [1])]), (['k'], .file [2])])])
        ⟨"DELETE", ⟨"/z"⟩, []⟩
          = (httpError "404 not found" 404,
            .dir [("srv".toList, .dir [(['d'], .dir [(['x'], .file [1])]), (['k'], .file [2])])]) :=
  ⟨((C6_handleDelete_frame ⟨"/srv"⟩
      (.dir [("srv".toList, .dir [(['d'], .dir [(['x'], .file [1])]), (['k'], .file [2])])])
      ⟨"DELETE", ⟨"/d"⟩, []⟩).1 ["srv".toList, ['k']] (by decide)).trans (by rfl),
   (C6_handleDelete_frame ⟨"/srv"⟩
      (.dir [("srv".toList, .dir [(['d'], .dir [(['x'], .file [1])]), (['k'], .file [2])])])
      ⟨"DELETE", ⟨"/z"⟩, []⟩).2.1 (by rfl)⟩
/-! ## C4: a path with no entry -/

theorem httpError_status (msg : String) (code : Nat) : (httpError msg code).status = code := rfl

theorem mkdirAll_dir_cons (es : List (Name × Node)) (x : Name) (xs : List Name) :
    (Node.dir es).mkdirAll (x :: xs) =
      match ((lookupEntry x es).getD (.dir [])).mkdirAll xs with
      | .error e => .error e
      | .ok c => .ok (.dir (setEntry x c es)) := rfl

/-- After a successful MkdirAll the path names a directory. -/
theorem mkdirAll_get {n n1 : Node} {d : List Name} (h : n.mkdirAll d = .ok n1) :
    ∃ es, n1.get d = .ok (.dir es) := by
  induction d generalizing n n1 with
  | nil =>
    cases n with
    | file c => simp [Node.mkdirAll] at h
    | dir es =>
      simp [Node.mkdirAll] at h
      subst h
      exact ⟨es, rfl⟩
  | cons x xs ih =>
    cases n with
    | file c => simp [Node.mkdirAll] at h
    | dir es =>
      rw [mkdirAll_dir_cons] at h
      cases hc : ((lookupEntry x es).getD (.dir [])).mkdirAll xs with
      | error e => simp [hc] at h
      | ok c =>
        simp only [hc] at h
        injection h with h
        subst h
        rw [get_dir_cons, lookupEntry_setEntry_eq]
        exact ih hc

/-- MkdirAll of an existing directory changes nothing. -/
theorem mkdirAll_eq_self {n : Node} {d : List Name} {es : List (Name × Node)}
    (h : n.get d = .ok (.dir es)) : n.mkdirAll d = .ok n := by
  induction d generalizing n with
  | nil =>
    rw [get_nil] at h
    injection h with h
    subst h
    rfl
  | cons x xs ih =>
    cases n with
    | file c => simp [get_file_cons] at h
    | dir es0 =>
      rw [get_dir_cons] at h
      rw [mkdirAll_dir_cons]
      cases hl : lookupEntry x es0 with
      | none => simp [hl] at h
      | some c =>
        simp only [hl] at h
        simp only [Option.getD_some, ih h, setEntry_self hl]

theorem create_dir_cons (es : List (Name × Node)) (x : Name) (xs : List Name) :
    (Node.dir es).create (x :: xs) =
      match lookupEntry x es with
      | none =>
        match xs with
        | [] => .ok (.dir (setEntry x (.file []) es))
        | _ :: _ => .error .ENOENT
      | some c =>
        match c.create xs with
        | .error e => .error e
        | .ok c1 => .ok (.dir (setEntry x c1 es)) := rfl

theorem write_dir_cons (es : List (Name × Node)) (x : Name) (xs : List Name) (data : Bytes) :
    (Node.dir es).write (x :: xs) data =
      match lookupEntry x es with
      | none => .error .ENOENT
      | some c =>
        match c.write xs data with
        | .error e => .error e
        | .ok c1 => .ok (.dir (setEntry x c1 es)) := rfl

/-- After a successful create the path names an empty regular file. -/
theorem create_get {n n1 : Node} {cs : List Name} (h : n.create cs = .ok n1) :
    n1.get cs = .ok (.file []) := by
  induction cs generalizing n n1 with
  | nil =>
    cases n with
    | file c =>
      simp [Node.create] at h
      subst h
      rfl
    | dir es => simp [Node.create] at h
  | cons x xs ih =>
    cases n with
    | file c => simp [Node.create] at h
    | dir es =>
      rw [create_dir_cons] at h
      cases hl : lookupEntry x es with
      | none =>
        simp only [hl] at h
        cases xs with
        | nil =>
          simp only [] at h
          injection h with h
          subst h
          rw [get_dir_cons, lookupEntry_setEntry_eq]
          rfl
        | cons y ys => simp at h
      | some c =>
        simp only [hl] at h
        cases hc : c.create xs with
        | error e => simp [hc] at h
        | ok c1 =>
          simp only [hc] at h
          injection h with h
          subst h
          rw [get_dir_cons, lookupEntry_setEntry_eq]
          exact ih hc

/-- Writing to a regular file succeeds, the file then holds the old content followed by the
data, and truncating it again gives the tree with the file empty. -/
theorem write_of_get {n : Node} {cs : List Name} {c : Bytes} (h : n.get cs = .ok (.file c))
    (data : Bytes) :
    ∃ n1, n.write cs data = .ok n1 ∧ n1.get cs = .ok (.file (c ++ data))
      ∧ ∀ n0 : Node, n0.create cs = .ok n → n1.create cs = .ok n := by
  induction cs generalizing n with
  | nil =>
    rw [get_nil] at h
    injection h with h
    subst h
    refine ⟨.file (c ++ data), rfl, rfl, ?_⟩
    intro n0 h0
    cases n0 with
    | file c0 =>
      simp [Node.create] at h0
      subst h0
      rfl
    | dir es => simp [Node.create] at h0
  | cons x xs ih =>
    cases n with
    | file c0 => simp [get_file_cons] at h
    | dir es =>
      rw [get_dir_cons] at h
      cases hl : lookupEntry x es with
      | none => simp [hl] at h
      | some d =>
        simp only [hl] at h
        obtain ⟨d1, hw, hg, hcr⟩ := ih h
        refine ⟨.dir (setEntry x d1 es), ?_, ?_, ?_⟩
        · rw [write_dir_cons, hl]
          simp only [hw]
        · rw [get_dir_cons, lookupEntry_setEntry_eq]
          exact hg
        · intro n0 h0
          cases n0 with
          | file c0 => simp [Node.create] at h0
          | dir es0 =>
            rw [create_dir_cons] at h0
            rw [create_dir_cons, lookupEntry_setEntry_eq]
            simp only []
            cases hl0 : lookupEntry x es0 with
            | none =>
              simp only [hl0] at h0
              cases xs with
              | nil =>
                simp only [] at h0
                injection h0 with h0
                injection h0 with h0
                have hd : d = .file [] := by
                  have := lookupEntry_setEntry_eq x (.file []) es0
                  rw [h0, hl] at this
                  injection this
                subst hd
                rw [get_nil] at h
                obtain ⟨d2, hw2⟩ : ∃ d2, d1 = .file d2 := by
                  simp [Node.write] at hw
                  exact ⟨_, hw.symm⟩
                subst hw2
                simp only [Node.create]
                rw [← h0, setEntry_setEntry, setEntry_setEntry]
              | cons y ys => simp at h0
            | some d0 =>
              simp only [hl0] at h0
              cases hc0 : d0.create xs with
              | error e => simp [hc0] at h0
              | ok d00 =>
                simp only [hc0] at h0
                injection h0 with h0
                injection h0 with h0
                have hd : d = d00 := by
                  have := lookupEntry_setEntry_eq x d00 es0
                  rw [h0, hl] at this
                  injection this
                subst hd
                rw [hcr d0 hc0]
                simp only []
                rw [setEntry_setEntry, setEntry_self hl]
/-- Creating a file turns no directory into something else. -/
theorem create_preserves_dir {n n1 : Node} {cs : List Name} (h : n.create cs = .ok n1)
    {q : List Name} {es : List (Name × Node)} (hq : n.get q = .ok (.dir es)) :
    ∃ es1, n1.get q = .ok (.dir es1) := by
  induction cs generalizing n n1 q es with
  | nil =>
    cases n with
    | file c =>
      cases q with
      | nil => simp [get_nil] at hq
      | cons y ys => simp [get_file_cons] at hq
    | dir es0 => simp [Node.create] at h
  | cons x xs ih =>
    cases n with
    | file c => simp [Node.create] at h
    | dir es0 =>
      rw [create_dir_cons] at h
      cases q with
      | nil =>
        cases hl : lookupEntry x es0 with
        | none =>
          simp only [hl] at h
          cases xs with
          | nil =>
            simp only [] at h
            injection h with h
            subst h
            exact ⟨_, get_nil _⟩
          | cons z zs => simp at h
        | some c =>
          simp only [hl] at h
          cases hc : c.create xs with
          | error e => simp [hc] at h
          | ok c1 =>
            simp only [hc] at h
            injection h with h
            subst h
            exact ⟨_, get_nil _⟩
      | cons y ys =>
        rw [get_dir_cons] at hq
        cases hly : lookupEntry y es0 with
        | none => simp [hly] at hq
        | some cy =>
          simp only [hly] at hq
          by_cases hyx : y = x
          · subst hyx
            simp only [hly] at h
            cases hc : cy.create xs with
            | error e => simp [hc] at h
            | ok c1 =>
              simp only [hc] at h
              injection h with h
              subst h
              rw [get_dir_cons, lookupEntry_setEntry_eq]
              exact ih hc hq
          · have hkeep : ∀ m, (Node.dir (setEntry x m es0)).get (y :: ys) = .ok (.dir es) := by
              intro m
              rw [get_dir_cons, lookupEntry_setEntry_ne hyx, hly]
              exact hq
            cases hl : lookupEntry x es0 with
            | none =>
              simp only [hl] at h
              cases xs with
              | nil =>
                simp only [] at h
                injection h with h
                subst h
                exact ⟨es, hkeep _⟩
              | cons z zs => simp at h
            | some c =>
              simp only [hl] at h
              cases hc : c.create xs with
              | error e => simp [hc] at h
              | ok c1 =>
                simp only [hc] at h
                injection h with h
                subst h
                exact ⟨es, hkeep _⟩

/-- Writing to a file turns no directory into something else. -/
theorem write_preserves_dir {n n1 : Node} {cs : List Name} {data : Bytes}
    (h : n.write cs data = .ok n1)
    {q : List Name} {es : List (Name × Node)} (hq : n.get q = .ok (.dir es)) :
    ∃ es1, n1.get q = .ok (.dir es1) := by
  induction cs generalizing n n1 q es with
  | nil =>
    cases n with
    | file c =>
      cases q with
      | nil => simp [get_nil] at hq
      | cons y ys => simp [get_file_cons] at hq
    | dir es0 => simp [Node.write] at h
  | cons x xs ih =>
    cases n with
    | file c => simp [Node.write] at h
    | dir es0 =>
      rw [write_dir_cons] at h
      cases hl : lookupEntry x es0 with
      | none => simp [hl] at h
      | some c =>
        simp only [hl] at h
        cases hc : c.write xs data with
        | error e => simp [hc] at h
        | ok c1 =>
          simp only [hc] at h
          injection h with h
          subst h
          cases q with
          | nil => exact ⟨_, get_nil _⟩
          | cons y ys =>
            rw [get_dir_cons] at hq
            rw [get_dir_cons]
            by_cases hyx : y = x
            · subst hyx
              rw [lookupEntry_setEntry_eq]
              simp only [hl] at hq
              exact ih hc hq
            · rw [lookupEntry_setEntry_ne hyx]
              exact ⟨es, hq⟩

/-- A PUT that answers 201 has created the directories, created the file and written the body,
in this order. -/
theorem handlePut_created {s : Server} {fs : FS} {r : Request}
    (h : (s.handlePut fs r).1.status = 201) :
    ∃ fs1 fs2 fs3,
      fs.mkdirAll (components (Dir (s.localPath r))) = .ok fs1
        ∧ fs1.create (components (s.localPath r)) = .ok fs2
        ∧ fs2.write (components (s.localPath r)) r.Body = .ok fs3
        ∧ s.handlePut fs r = (writeHeader StatusCreated, fs3)
        ∧ s.localPath r ≠ [] ∧ Dir (s.localPath r) ≠ [] := by
  unfold Server.handlePut at h ⊢
  simp only [] at h ⊢
  cases hm : MkdirAll fs (Dir (s.localPath r)) with
  | error e =>
    rw [hm] at h
    simp [httpError, StatusInternalServerError] at h
  | ok fs1 =>
    rw [hm] at h
    simp only [] at h
    cases hc : Create fs1 (s.localPath r) with
    | error e =>
      rw [hc] at h
      simp [httpError, StatusInternalServerError] at h
    | ok p =>
      obtain ⟨file, fs2⟩ := p
      rw [hc] at h
      simp only [] at h
      cases hw : ioCopy fs2 file r.Body with
      | error e =>
        rw [hw] at h
        simp [httpError, StatusInternalServerError] at h
      | ok p2 =>
        obtain ⟨k, fs3⟩ := p2
        have hd0 : Dir (s.localPath r) ≠ [] := by
          intro h0
          rw [h0] at hm
          simp [MkdirAll] at hm
        have hp0 : s.localPath r ≠ [] := by
          intro h0
          rw [h0] at hc
          simp [Create] at hc
        obtain ⟨a, as, ha⟩ := List.exists_cons_of_ne_nil hd0
        obtain ⟨b, bs, hb⟩ := List.exists_cons_of_ne_nil hp0
        have hm1 : fs.mkdirAll (components (Dir (s.localPath r))) = .ok fs1 := by
          rw [ha] at hm ⊢
          simpa [MkdirAll] using hm
        have hc1 : fs1.create (components (s.localPath r)) = .ok fs2
            ∧ file = { place := components (s.localPath r) } := by
          rw [hb] at hc ⊢
          simp only [Create] at hc
          cases hcc : fs1.create (components (b :: bs)) with
          | error e => simp [hcc] at hc
          | ok fs2a =>
            simp only [hcc] at hc
            injection hc with hc
            injection hc with hf hfs
            exact ⟨by rw [hfs], hf.symm⟩
        have hw1 : fs2.write (components (s.localPath r)) r.Body = .ok fs3 := by
          simp only [ioCopy, hc1.2] at hw
          cases hww : fs2.write (components (s.localPath r)) r.Body with
          | error e => simp [hww] at hw
          | ok fs3a =>
            simp only [hww] at hw
            injection hw with hw
            injection hw with _ hfs
            rw [hfs]
        exact ⟨fs1, fs2, fs3, hm1, hc1.1, hw1, by simp only [hm, hc, hw], hp0, hd0⟩

/-- The three steps of a PUT, when each succeeds, give the answer 201. -/
theorem handlePut_of_steps {s : Server} {fs fs1 fs2 fs3 : FS} {r : Request}
    (hd0 : Dir (s.localPath r) ≠ []) (hp0 : s.localPath r ≠ [])
    (hm : fs.mkdirAll (components (Dir (s.localPath r))) = .ok fs1)
    (hc : fs1.create (components (s.localPath r)) = .ok fs2)
    (hw : fs2.write (components (s.localPath r)) r.Body = .ok fs3) :
    s.handlePut fs r = (writeHeader StatusCreated, fs3) := by
  obtain ⟨a, as, ha⟩ := List.exists_cons_of_ne_nil hd0
  obtain ⟨b, bs, hb⟩ := List.exists_cons_of_ne_nil hp0
  have hM : MkdirAll fs (Dir (s.localPath r)) = .ok fs1 := by
    rw [ha] at hm ⊢
    simpa [MkdirAll] using hm
  have hC : Create fs1 (s.localPath r) = .ok ({ place := components (s.localPath r) }, fs2) := by
    rw [hb] at hc ⊢
    simp only [Create, hc]
  have hW : ioCopy fs2 { place := components (s.localPath r) } r.Body
      = .ok (r.Body.length, fs3) := by
    simp only [ioCopy, hw]
  unfold Server.handlePut
  simp only [hM, hC, hW]
/-- After a PUT that answers 201 the resolved path names a regular file holding exactly the
body, and a second run of the three steps on the result changes nothing. -/
theorem handlePut_result {s : Server} {fs : FS} {r : Request}
    (h : (s.handlePut fs r).1.status = 201) :
    s.localPath r ≠ []
      ∧ (s.handlePut fs r).1 = writeHeader StatusCreated
      ∧ (s.handlePut fs r).2.get (components (s.localPath r)) = .ok (.file r.Body)
      ∧ s.handlePut (s.handlePut fs r).2 r = (writeHeader StatusCreated, (s.handlePut fs r).2) := by
  obtain ⟨fs1, fs2, fs3, hm, hc, hw, hP, hp0, hd0⟩ := handlePut_created h
  obtain ⟨n1, hw1, hg1, hcr⟩ := write_of_get (create_get hc) r.Body
  rw [hw] at hw1
  injection hw1 with hw1
  subst hw1
  obtain ⟨es1, hd1⟩ := mkdirAll_get hm
  obtain ⟨es2, hd2⟩ := create_preserves_dir hc hd1
  obtain ⟨es3, hd3⟩ := write_preserves_dir hw hd2
  rw [hP]
  refine ⟨hp0, rfl, by simpa using hg1, ?_⟩
  exact handlePut_of_steps hd0 hp0 (mkdirAll_eq_self hd3) (hcr fs1 hc) hw

/-! ## C1: PUT then GET -/

/-- C9: for every filesystem state, path P and body B for which PUT answers 201, a second PUT of
B to P answers 201 as well and leaves the filesystem tree exactly as the first PUT left it,
with a regular file at the resolved path whose content is exactly B. -/
theorem C9_put_idempotent (s : Server) (fs : FS) (r : Request)
    (hput : (s.handlePut fs r).1.status = 201) :
    (s.handlePut (s.handlePut fs r).2 r).1.status = 201
      ∧ (s.handlePut (s.handlePut fs r).2 r).2 = (s.handlePut fs r).2
      ∧ (s.handlePut (s.handlePut fs r).2 r).1 = (s.handlePut fs r).1
      ∧ (s.handlePut (s.handlePut fs r).2 r).2.get (components (s.localPath r))
          = .ok (.file r.Body) := by
  obtain ⟨_, h1, hg, h2⟩ := handlePut_result hput
  rw [h2, h1]
  exact ⟨rfl, rfl, rfl, hg⟩

/-- C9 on the tree `/srv/d/f` holding other bytes: PUT `/d/f` twice. -/
theorem C9_put_idempotent_witness :
    ((⟨"/srv"⟩ : Server).handlePut
        (.dir [("srv".toList, .dir [(['d'], .dir [(['f'], .file [1, 2, 3, 4])])])])
        ⟨"PUT", ⟨"/d/f"⟩, [7, 8]⟩).1.status = 201
      ∧ ((⟨"/srv"⟩ : Server).handlePut
          ((⟨"/srv"⟩ : Server).handlePut
            (.dir [("srv".toList, .dir [(['d'], .dir [(['f'], .file [1, 2, 3, 4])])])])
            ⟨"PUT", ⟨"/d/f"⟩, [7, 8]⟩).2
          ⟨"PUT", ⟨"/d/f"⟩, [7, 8]⟩).2
        = ((⟨"/srv"⟩ : Server).handlePut
            (.dir [("srv".toList, .dir [(['d'], .dir [(['f'], .file [1, 2, 3, 4])])])])
            ⟨"PUT", ⟨"/d/f"⟩, [7, 8]⟩).2 :=
  ⟨by rfl,
   (C9_put_idempotent ⟨"/srv"⟩
      (.dir [("srv".toList, .dir [(['d'], .dir [(['f'], .file [1, 2, 3, 4])])])])
      ⟨"PUT", ⟨"/d/f"⟩, [7, 8]⟩ (by rfl)).2.1⟩
/-! ## Path elements -/

/-- C2 at the failing input: with the base directory `/srv/files` the URL path
`/../../etc/passwd` resolves to `/etc/passwd`, which is neither the base directory nor below
it; DELETE of that URL path removes `/etc/passwd`, and PUT `/../x` writes `/srv/x`. -/
theorem C2_path_escapes_base_directory :
    (⟨"/srv/files"⟩ : Server).localPath ⟨"GET", ⟨"/../../etc/passwd"⟩, []⟩ = "/etc/passwd".toList
      ∧ ¬ components (Clean "/srv/files".toList)
          <+: components ((⟨"/srv/files"⟩ : Server).localPath ⟨"GET", ⟨"/../../etc/passwd"⟩, []⟩)
      ∧ (⟨"/srv/files"⟩ : Server).handleDelete
          (.dir [("srv".toList, .dir [("files".toList, .dir [])]),
            ("etc".toList, .dir [("passwd".toList, .file [1])])])
          ⟨"DELETE", ⟨"/../../etc/passwd"⟩, []⟩
        = (writeHeader 200,
            .dir [("srv".toList, .dir [("files".toList, .dir [])]), ("etc".toList, .dir [])])
      ∧ (⟨"/srv/files"⟩ : Server).handlePut
          (.dir [("srv".toList, .dir [("files".toList, .dir [])])])
          ⟨"PUT", ⟨"/../x"⟩, [7]⟩
        = (writeHeader 201,
            .dir [("srv".toList, .dir [("files".toList, .dir []), (['x'], .file [7])])]) :=
  ⟨by decide, by decide, by rfl, by rfl⟩

end Files
